import Mathlib

/-!
Verification of the terminal-multiplexer server core (`server.js`).

The development shallowly embeds the two pure algorithms of the server —
the `RingBuffer` circular scrollback buffer and the `getNextSessionNumber`
gap-filling name allocator — and a state-transition model of the socket.io
session registry (create / subscribe / input / resize / pty-data / pty-exit
handlers), and proves the documented properties about them.

Bytes are modelled as `Nat`; byte buffers as `List Nat`.
-/

set_option maxRecDepth 4000

namespace Server

/-- Reading `l.getD i 0`: the byte stored at physical index `i` (0 past the
    end), modelling `buf[i]` reads on a Node `Buffer`. -/
def nth (l : List Nat) (i : Nat) : Nat := l.getD i 0

/-- Model of `src.copy(dest, pos)` on Node Buffers: write the bytes of `src` into
    `dest` starting at physical index `pos` (out-of-range writes are dropped,
    as `List.set` ignores out-of-range indices). -/
def writeList : List Nat → Nat → List Nat → List Nat
  | dest, _, [] => dest
  | dest, pos, a :: rest => writeList (dest.set pos a) (pos + 1) rest

/-- The `RingBuffer` class state: backing storage `buf` (allocated with
    `Buffer.allocUnsafe(limitBytes)`), capacity `limit`, logical start
    offset `start` and logical length `len`. -/
structure RingBuffer where
  buf : List Nat
  limit : Nat
  start : Nat
  len : Nat
deriving DecidableEq

/-- Constructor `new RingBuffer(limitBytes)`: `allocUnsafe` leaves arbitrary bytes in the
    storage, modelled here as zeros; `start = 0`, `len = 0`. -/
def RingBuffer.new (limitBytes : Nat) : RingBuffer :=
  { buf := List.replicate limitBytes 0, limit := limitBytes, start := 0, len := 0 }

/-- Method `RingBuffer.append(input)`, translated line by line from the source:

    * oversized input (`b.length >= limit`): copy the last `limit` bytes of
      the input over the whole storage, `start = 0`, `len = limit`;
    * otherwise advance `start` (discarding the oldest bytes) when the input
      does not fit in the free space, extend `len`, and copy the input at
      `writePos = (start + len - b.length) % limit`, wrapping the copy when
      it runs past the end of storage. -/
def RingBuffer.append (rb : RingBuffer) (b : List Nat) : RingBuffer :=
  if rb.limit ≤ b.length then
    { rb with buf := writeList rb.buf 0 (b.drop (b.length - rb.limit)),
              start := 0, len := rb.limit }
  else
    let free := rb.limit - rb.len
    let start' := if free < b.length then (rb.start + (b.length - free)) % rb.limit else rb.start
    let len' := if free < b.length then rb.limit else rb.len + b.length
    let writePos := (start' + len' - b.length) % rb.limit
    let firstPart := min b.length (rb.limit - writePos)
    let buf' := writeList rb.buf writePos (b.take firstPart)
    let buf'' := if firstPart < b.length then writeList buf' 0 (b.drop firstPart) else buf'
    { rb with buf := buf'', start := start', len := len' }

/-- Method `RingBuffer.toString()`: the logical content in chronological order,
    as the byte sequence the decoded string is built from.
    `buf.slice(a, b)` is `(buf.drop a).take (b - a)`. -/
def RingBuffer.contents (rb : RingBuffer) : List Nat :=
  if rb.len = 0 then []
  else if rb.start + rb.len ≤ rb.limit then
    (rb.buf.drop rb.start).take rb.len
  else
    let tailLen := rb.start + rb.len - rb.limit
    (rb.buf.drop rb.start).take (rb.limit - rb.start) ++ rb.buf.take tailLen

/-- Representation invariant of the ring buffer: the storage has exactly
    `limit` cells, the start offset is in range, and the logical length
    never exceeds the capacity. -/
def RingBuffer.wf (rb : RingBuffer) : Prop :=
  rb.buf.length = rb.limit ∧ rb.start < rb.limit ∧ rb.len ≤ rb.limit

instance (rb : RingBuffer) : Decidable rb.wf := by unfold RingBuffer.wf; infer_instance

/-- The byte at logical offset `i` from the start of the content. -/
def RingBuffer.readAt (rb : RingBuffer) (i : Nat) : Nat :=
  nth rb.buf ((rb.start + i) % rb.limit)

/-- The logical content read off cell by cell. -/
def RingBuffer.model (rb : RingBuffer) : List Nat :=
  (List.range rb.len).map (fun i => rb.readAt i)

/-- The intermediate values of `append`'s non-oversized branch, named:
    `start'`/`len'` after the `free`-space adjustment, the wrapped write
    position, the length of the first copied part, and the storage after the
    one or two `copy` calls.  These are the same expressions the `let`s of
    `RingBuffer.append` bind. -/
def RingBuffer.smallStart (rb : RingBuffer) (b : List Nat) : Nat :=
  if rb.limit - rb.len < b.length
  then (rb.start + (b.length - (rb.limit - rb.len))) % rb.limit else rb.start

def RingBuffer.smallLen (rb : RingBuffer) (b : List Nat) : Nat :=
  if rb.limit - rb.len < b.length then rb.limit else rb.len + b.length

def RingBuffer.smallWritePos (rb : RingBuffer) (b : List Nat) : Nat :=
  (rb.smallStart b + rb.smallLen b - b.length) % rb.limit

def RingBuffer.smallFirstPart (rb : RingBuffer) (b : List Nat) : Nat :=
  min b.length (rb.limit - rb.smallWritePos b)

def RingBuffer.smallBuf (rb : RingBuffer) (b : List Nat) : List Nat :=
  let buf' := writeList rb.buf (rb.smallWritePos b) (b.take (rb.smallFirstPart b))
  if rb.smallFirstPart b < b.length then writeList buf' 0 (b.drop (rb.smallFirstPart b))
  else buf'

/-- The last `n` elements of `l` (all of `l` when `l` is shorter). -/
def lastN (n : Nat) (l : List Nat) : List Nat := l.drop (l.length - n)

/-- Fold a whole sequence of appends over a buffer. -/
def RingBuffer.appendAll (rb : RingBuffer) (chunks : List (List Nat)) : RingBuffer :=
  chunks.foldl RingBuffer.append rb

/-- The physical storage indices written by `append`, read off the same index
    computations the source performs (the oversized branch fills `0..limit-1`;
    otherwise `writePos..writePos+firstPart-1` plus, when the copy wraps,
    `0..(b.length-firstPart)-1`). -/
def RingBuffer.appendWriteIndices (rb : RingBuffer) (b : List Nat) : List Nat :=
  if rb.limit ≤ b.length then
    List.range rb.limit
  else
    let free := rb.limit - rb.len
    let start' := if free < b.length then (rb.start + (b.length - free)) % rb.limit else rb.start
    let len' := if free < b.length then rb.limit else rb.len + b.length
    let writePos := (start' + len' - b.length) % rb.limit
    let firstPart := min b.length (rb.limit - writePos)
    (List.range firstPart).map (writePos + ·) ++ List.range (b.length - firstPart)

/-- The physical storage indices read by `toString`, read off the slice bounds
    the source uses (`start..start+len-1` without wrap, else `start..limit-1`
    plus `0..tailLen-1`). -/
def RingBuffer.contentsReadIndices (rb : RingBuffer) : List Nat :=
  if rb.len = 0 then []
  else if rb.start + rb.len ≤ rb.limit then
    (List.range rb.len).map (rb.start + ·)
  else
    let tailLen := rb.start + rb.len - rb.limit
    (List.range (rb.limit - rb.start)).map (rb.start + ·) ++ List.range tailLen

/-! ## Session naming (`getNextSessionNumber`, lines 70-88) -/

/-- The numeric value of one ASCII digit character (`parseInt` digit step). -/
def charToDigit (c : Char) : Nat := c.toNat - 48

/-- Value of `parseInt(ds, 10)` on a string of decimal digits. -/
def digitsToNat (l : List Char) : Nat := l.foldl (fun acc c => 10 * acc + charToDigit c) 0

/-- The decimal digit characters of `n` (most significant first), i.e. the
    characters contributed by `${n}` template interpolation for `n ≥ 1`. -/
def natToDecimal (n : Nat) : List Char := ((Nat.digits 10 n).map Nat.digitChar).reverse

/-- Result of `name.match(/^Term (\d+)$/)` followed by `parseInt(match[1], 10)`:
    the literal prefix `"Term "` followed by one or more ASCII digits running
    to the end of the string; anything else returns `null`. -/
def parseTermChars : List Char → Option Nat
  | 'T' :: 'e' :: 'r' :: 'm' :: ' ' :: rest =>
      if rest ≠ [] ∧ rest.all Char.isDigit then some (digitsToNat rest) else none
  | _ => none

/-- The regex scan on a session display name. -/
def parseTermNumber (s : String) : Option Nat := parseTermChars s.data

/-- Sorting `.sort((a, b) => a - b)`: numeric ascending sort. -/
def sortAsc (l : List Nat) : List Nat := List.insertionSort (· ≤ ·) l

/-- The `for (const num of usedNumbers)` loop: starting from `nextNumber`,
    bump past each consecutive used number and stop at the first gap. -/
def scanNext : List Nat → Nat → Nat
  | [], next => next
  | num :: rest, next => if num = next then scanNext rest (next + 1) else next

/-- The `usedNumbers` array: regex-matching names mapped to their numbers,
    non-matching names filtered out. -/
def usedNumbers (names : List String) : List Nat := names.filterMap parseTermNumber

/-- Function `getNextSessionNumber()`, as a function of the current display names. -/
def getNextSessionNumber (names : List String) : Nat :=
  scanNext (sortAsc (usedNumbers names)) 1

/-- Formatting of the template literal interpolating n after the word Term. -/
def termName (n : Nat) : String := "Term " ++ ⟨natToDecimal n⟩

/-- The display name the allocator hands to a new session. -/
def nextSessionName (names : List String) : String := termName (getNextSessionNumber names)

/-! ## Server session registry and event handlers (lines 67-175)

The socket.io server is modelled as a state-transition system.  `store` holds
every session object ever constructed (the pty `data`/`exit` callbacks close
over the session object, so it stays reachable even after deletion from the
`sessions` map); `live` holds the ids currently in the `sessions` map, in Map
insertion order; `connected` the connected socket ids; `rooms` the
socket.io room memberships `(socket, sessionId)`.  Each event handler returns
the new state plus the list of messages it emits (including writes/resizes
forwarded to the pty, so that absence of side effects is observable). -/

/-- Constant `HISTORY_LIMIT` (line 68). -/
def HISTORY_LIMIT : Nat := 1024 * 512

/-- One entry of the `sessions` map: display name and scrollback history.
    The pty process handle itself is external; its observable actions are the
    events and emitted messages below. -/
structure Session where
  name : String
  history : RingBuffer
deriving DecidableEq

/-- The server state. -/
structure ServerState where
  store : List (String × Session)
  live : List String
  connected : List Nat
  rooms : List (Nat × String)
deriving DecidableEq

/-- Events the server reacts to: socket messages, pty output and pty exit.
    `spawnOk` is the oracle for whether `pty.spawn` throws (line 102);
    `resizeFails` for whether `pty.resize` throws (line 173). -/
inductive Event where
  | connect (v : Nat)
  | subscribe (v : Nat) (sid : String)
  | createSession (v : Nat) (spawnOk : Bool) (newId : String)
  | terminalInput (v : Nat) (sid : String) (data : List Nat)
  | terminalResize (v : Nat) (sid : String) (cols rows : Nat) (resizeFails : Bool)
  | ptyData (sid : String) (chunk : List Nat)
  | ptyExit (sid : String) (code : Nat)
deriving DecidableEq

/-- Observable emissions: socket messages plus actions forwarded to a pty. -/
inductive Msg where
  | sessionsList (recipient : Nat) (sessions : List (String × String))
  | history (recipient : Nat) (sid : String) (content : List Nat)
  | output (recipient : Nat) (sid : String) (data : List Nat)
  | sessionClosed (recipient : Nat) (sid : String)
  | createdAck (recipient : Nat) (id : String) (name : String)
  | ptyWrite (sid : String) (data : List Nat)
  | ptyResize (sid : String) (cols rows : Nat)
deriving DecidableEq

/-- Find the session object constructed for `sid`, whether or not it is still
    registered (the pty callbacks hold such a reference). -/
def lookupStore (s : ServerState) (sid : String) : Option Session :=
  (s.store.find? (fun p => p.1 == sid)).map (·.2)

/-- Lookup `sessions.get(sid)`: only registered ids resolve. -/
def lookupSession (s : ServerState) (sid : String) : Option Session :=
  if s.live.contains sid then lookupStore s sid else none

/-- Replace the session object registered under `sid` (mutation of the object
    the pty callback closes over). -/
def updateStore (store : List (String × Session)) (sid : String) (f : Session → Session) :
    List (String × Session) :=
  store.map (fun p => if p.1 == sid then (p.1, f p.2) else p)

/-- The sockets currently in room `sid` (the subscriber group). -/
def roomMembers (s : ServerState) (sid : String) : List Nat :=
  (s.rooms.filter (fun p => p.2 == sid)).map (·.1)

/-- Joining `socket.join(sessionId)`: room membership is a set. -/
def joinRoom (rooms : List (Nat × String)) (v : Nat) (sid : String) : List (Nat × String) :=
  if rooms.contains (v, sid) then rooms else rooms ++ [(v, sid)]

/-- The display names of the registered sessions, in `sessions.values()`
    (insertion) order — the input `getNextSessionNumber` scans. -/
def liveNames (s : ServerState) : List String :=
  (s.live.filterMap (lookupStore s)).map (·.name)

/-- The id-and-name list sent as `sessions-list` on connect. -/
def liveList (s : ServerState) : List (String × String) :=
  s.live.filterMap (fun id => (lookupStore s id).map (fun sess => (id, sess.name)))

/-- Function `createSession()` (lines 90-132): on spawn failure return `null` and leave
    the state untouched; on success allocate the next name, construct the
    session with a fresh `RingBuffer(HISTORY_LIMIT)` and register it.
    `newId` stands for the fresh `uuidv4()`. -/
def createSessionOp (s : ServerState) (spawnOk : Bool) (newId : String) :
    Option (String × String) × ServerState :=
  if spawnOk then
    let n := getNextSessionNumber (liveNames s)
    let name := termName n
    let sess : Session := { name := name, history := RingBuffer.new HISTORY_LIMIT }
    ((some (newId, name)),
     { s with store := s.store ++ [(newId, sess)], live := s.live ++ [newId] })
  else (none, s)

/-- One event handler dispatch, translated from the version in the source:

    * `connect`: record the socket and send it the current session list;
    * `subscribe-session`: if the id is registered, join the room and, when
      the history is non-empty, emit one `history` message; else do nothing;
    * `create-session`: run `createSession()`; invoke the callback only on
      success;
    * `terminal-input`: forward the data verbatim to the pty if the id is
      registered, else do nothing;
    * `terminal-resize`: forward to the pty if registered, discarding a
      resize failure; else do nothing;
    * pty `data`: append the chunk to the captured session object's history
      and emit it to every room member;
    * pty `exit`: delete the id from the registry and broadcast
      `session-closed` to every connected socket. -/
def step (s : ServerState) : Event → ServerState × List Msg
  | .connect v =>
      ({ s with connected := s.connected ++ [v] }, [Msg.sessionsList v (liveList s)])
  | .subscribe v sid =>
      match lookupSession s sid with
      | some sess =>
          ({ s with rooms := joinRoom s.rooms v sid },
           if sess.history.contents.length ≠ 0
           then [Msg.history v sid sess.history.contents] else [])
      | none => (s, [])
  | .createSession v spawnOk newId =>
      match createSessionOp s spawnOk newId with
      | (some (id, name), s') => (s', [Msg.createdAck v id name])
      | (none, s') => (s', [])
  | .terminalInput _ sid data =>
      match lookupSession s sid with
      | some _ => (s, [Msg.ptyWrite sid data])
      | none => (s, [])
  | .terminalResize _ sid cols rows resizeFails =>
      match lookupSession s sid with
      | some _ => if resizeFails then (s, []) else (s, [Msg.ptyResize sid cols rows])
      | none => (s, [])
  | .ptyData sid chunk =>
      match lookupStore s sid with
      | some _ =>
          ({ s with store := updateStore s.store sid
                      (fun sess => { sess with history := sess.history.append chunk }) },
           (roomMembers s sid).map (fun v => Msg.output v sid chunk))
      | none => (s, [])
  | .ptyExit sid _ =>
      ({ s with live := s.live.erase sid },
       s.connected.map (fun v => Msg.sessionClosed v sid))

/-- Run a list of events, concatenating the emissions in order. -/
def runEvents (s : ServerState) : List Event → ServerState × List Msg
  | [] => (s, [])
  | e :: rest =>
      ((runEvents (step s e).1 rest).1, (step s e).2 ++ (runEvents (step s e).1 rest).2)

/-- The empty state before the module-level bootstrap code runs. -/
def emptyServer : ServerState := { store := [], live := [], connected := [], rooms := [] }

/-- Bootstrap `if (sessions.size === 0) createSession();` (line 135), with `id0` the
    bootstrap session's fresh uuid. -/
def initServer (spawnOk : Bool) (id0 : String) : ServerState :=
  if emptyServer.live.length = 0 then (createSessionOp emptyServer spawnOk id0).2
  else emptyServer

/-- The payload of a live `output` message addressed to viewer `v` for
    session `sid`, if `m` is one. -/
def outputValue (v : Nat) (sid : String) : Msg → Option (List Nat)
  | Msg.output w sid' d => if w = v ∧ sid' = sid then some d else none
  | _ => none

/-- The chronological sequence of live output payloads a given viewer receives
    for a given session from a message trace. -/
def outputsTo (v : Nat) (sid : String) (msgs : List Msg) : List (List Nat) :=
  msgs.filterMap (outputValue v sid)

/-- Whether an event is a `create-session` request that would register `sid`
    (uuid freshness excludes these after `sid` has been used). -/
def createsId : Event → String → Prop
  | .createSession _ _ newId, sid => newId = sid
  | _, _ => False

instance (e : Event) (sid : String) : Decidable (createsId e sid) := by
  unfold createsId
  cases e <;> infer_instance

/-- The byte sequence of `"hello"`, used in concrete instantiations. -/
def helloBytes : List Nat := [104, 101, 108, 108, 111]

/-- Small concrete server states used to instantiate the theorems. -/
def sampleSession : Session :=
  { name := "Term 1", history := RingBuffer.mk [0, 0, 0, 0] 4 0 0 }

def sampleSessionHello : Session :=
  { name := "Term 1", history := (RingBuffer.mk (List.replicate 8 0) 8 0 0).append helloBytes }

def sampleState : ServerState :=
  { store := [("a", sampleSession)], live := ["a"], connected := [7], rooms := [] }

def sampleStateHello : ServerState :=
  { store := [("a", sampleSessionHello)], live := ["a"], connected := [7, 9],
    rooms := [(7, "a")] }

/-! ## Storage-cell lemmas -/

theorem nth_getElem {l : List Nat} {i : Nat} (h : i < l.length) : nth l i = l[i] := by
  simp [nth, List.getD_eq_getElem?_getD, List.getElem?_eq_getElem h]

theorem nth_set_self {l : List Nat} {i : Nat} (a : Nat) (h : i < l.length) :
    nth (l.set i a) i = a := by
  simp [nth, List.getD_eq_getElem?_getD, List.getElem?_set_self, h]

theorem nth_set_ne {l : List Nat} {i j : Nat} (a : Nat) (h : i ≠ j) :
    nth (l.set i a) j = nth l j := by
  simp [nth, List.getD_eq_getElem?_getD, List.getElem?_set_ne h]

theorem nth_take {l : List Nat} {m j : Nat} (h : j < m) : nth (l.take m) j = nth l j := by
  simp [nth, List.getD_eq_getElem?_getD, List.getElem?_take, h]

theorem nth_drop (l : List Nat) (m j : Nat) : nth (l.drop m) j = nth l (m + j) := by
  simp [nth, List.getD_eq_getElem?_getD]

theorem length_writeList : ∀ (src dest : List Nat) (pos : Nat),
    (writeList dest pos src).length = dest.length
  | [], _, _ => rfl
  | a :: rest, dest, pos => by
      rw [writeList, length_writeList rest, List.length_set]

theorem nth_writeList_lt : ∀ (src dest : List Nat) (pos i : Nat),
    i < pos → nth (writeList dest pos src) i = nth dest i
  | [], _, _, _, _ => rfl
  | a :: rest, dest, pos, i, h => by
      rw [writeList, nth_writeList_lt rest _ _ _ (Nat.lt_succ_of_lt h),
          nth_set_ne a (Nat.ne_of_gt h)]

theorem nth_writeList_ge : ∀ (src dest : List Nat) (pos i : Nat),
    pos + src.length ≤ i → nth (writeList dest pos src) i = nth dest i
  | [], _, _, _, _ => rfl
  | a :: rest, dest, pos, i, h => by
      rw [writeList, nth_writeList_ge rest _ _ _ (by simp at h; omega),
          nth_set_ne a (by simp at h; omega)]

theorem nth_writeList_in : ∀ (src dest : List Nat) (pos j : Nat),
    j < src.length → pos + j < dest.length →
    nth (writeList dest pos src) (pos + j) = nth src j
  | a :: rest, dest, pos, 0, _, hd => by
      rw [writeList]
      have h1 : nth (writeList (dest.set pos a) (pos + 1) rest) (pos + 0)
          = nth (dest.set pos a) (pos + 0) := nth_writeList_lt rest _ _ _ (by omega)
      rw [h1, Nat.add_zero, nth_set_self a (by omega)]
      rfl
  | a :: rest, dest, pos, j + 1, hj, hd => by
      rw [writeList, show pos + (j + 1) = (pos + 1) + j by omega,
          nth_writeList_in rest _ _ j (by simp at hj; omega)
            (by rw [List.length_set]; omega)]
      rfl

/-- Length of the (possibly wrapping) two-part copy `append` performs. -/
theorem two_copy_length (L : Nat) (dest src : List Nat) (pos : Nat) (r : List Nat)
    (hd : dest.length = L)
    (hr : r = if min src.length (L - pos) < src.length
              then writeList (writeList dest pos (src.take (min src.length (L - pos)))) 0
                     (src.drop (min src.length (L - pos)))
              else writeList dest pos (src.take (min src.length (L - pos)))) :
    r.length = L := by
  subst hr
  split <;> simp [length_writeList, hd]

/-- The two-part copy writes `src[j]` at physical cell `(pos + j) % L`. -/
theorem two_copy_nth_in (L : Nat) (dest src : List Nat) (pos : Nat) (r : List Nat)
    (hd : dest.length = L) (hpos : pos < L) (hsrc : src.length ≤ L)
    (hr : r = if min src.length (L - pos) < src.length
              then writeList (writeList dest pos (src.take (min src.length (L - pos)))) 0
                     (src.drop (min src.length (L - pos)))
              else writeList dest pos (src.take (min src.length (L - pos))))
    (j : Nat) (hj : j < src.length) :
    nth r ((pos + j) % L) = nth src j := by
  subst hr
  by_cases hw : min src.length (L - pos) < src.length
  · have hm : min src.length (L - pos) = L - pos := by omega
    rw [if_pos hw, hm]
    by_cases hjm : j < L - pos
    · have hmod : (pos + j) % L = pos + j := Nat.mod_eq_of_lt (by omega)
      rw [hmod, nth_writeList_ge _ _ _ _ (by simp [List.length_drop]; omega)]
      have := nth_writeList_in (src.take (L - pos)) dest pos j
        (by simp [List.length_take]; omega) (by omega)
      rw [this, nth_take hjm]
    · have hmod : (pos + j) % L = j - (L - pos) := by
        rw [Nat.mod_eq_sub_mod (by omega), Nat.mod_eq_of_lt (by omega)]
        omega
      rw [hmod]
      have := nth_writeList_in (src.drop (L - pos))
        (writeList dest pos (src.take (L - pos))) 0 (j - (L - pos))
        (by simp [List.length_drop]; omega)
        (by rw [length_writeList, hd]; omega)
      rw [Nat.zero_add] at this
      rw [this, nth_drop]
      congr 1
      omega
  · have hm : min src.length (L - pos) = src.length := by omega
    rw [if_neg hw, hm, List.take_length,
        Nat.mod_eq_of_lt (by omega), nth_writeList_in src dest pos j hj (by omega)]

/-- Cells not of the form `(pos + j) % L` are untouched by the two-part copy. -/
theorem two_copy_nth_out (L : Nat) (dest src : List Nat) (pos : Nat) (r : List Nat)
    (hd : dest.length = L) (hpos : pos < L) (hsrc : src.length ≤ L)
    (hr : r = if min src.length (L - pos) < src.length
              then writeList (writeList dest pos (src.take (min src.length (L - pos)))) 0
                     (src.drop (min src.length (L - pos)))
              else writeList dest pos (src.take (min src.length (L - pos))))
    (p : Nat) (hp : p < L) (hout : ∀ j, j < src.length → p ≠ (pos + j) % L) :
    nth r p = nth dest p := by
  subst hr
  by_cases hw : min src.length (L - pos) < src.length
  · have hm : min src.length (L - pos) = L - pos := by omega
    rw [if_pos hw, hm]
    by_cases h1 : p < src.length - (L - pos)
    · have hj : p + (L - pos) < src.length := by omega
      have hpe : (pos + (p + (L - pos))) % L = p := by
        rw [show pos + (p + (L - pos)) = L + p by omega, Nat.add_mod_left,
            Nat.mod_eq_of_lt hp]
      exact (hout (p + (L - pos)) hj hpe.symm).elim
    · rw [nth_writeList_ge _ _ _ _ (by simp [List.length_drop]; omega)]
      by_cases h2 : p < pos
      · rw [nth_writeList_lt _ _ _ _ h2]
      · have hj : p - pos < src.length := by omega
        have hpe : (pos + (p - pos)) % L = p := by
          rw [show pos + (p - pos) = p by omega, Nat.mod_eq_of_lt hp]
        exact (hout (p - pos) hj hpe.symm).elim
  · have hm : min src.length (L - pos) = src.length := by omega
    rw [if_neg hw, hm, List.take_length]
    by_cases h2 : p < pos
    · rw [nth_writeList_lt _ _ _ _ h2]
    · by_cases h3 : pos + src.length ≤ p
      · rw [nth_writeList_ge _ _ _ _ h3]
      · have hj : p - pos < src.length := by omega
        have hpe : (pos + (p - pos)) % L = p := by
          rw [show pos + (p - pos) = p by omega, Nat.mod_eq_of_lt hp]
        exact (hout (p - pos) hj hpe.symm).elim

/-! ## `lastN` lemmas -/

theorem lastN_of_le {n : Nat} {l : List Nat} (h : l.length ≤ n) : lastN n l = l := by
  unfold lastN
  rw [Nat.sub_eq_zero_of_le h, List.drop_zero]

theorem length_lastN (n : Nat) (l : List Nat) : (lastN n l).length = min n l.length := by
  unfold lastN
  rw [List.length_drop]
  omega

theorem lastN_append_right {L : Nat} (m : List Nat) {b : List Nat} (h : L ≤ b.length) :
    lastN L (m ++ b) = lastN L b := by
  unfold lastN
  rw [List.length_append, show m.length + b.length - L = m.length + (b.length - L) by omega,
      List.drop_append]

theorem lastN_append_small {L : Nat} (m : List Nat) {b : List Nat} (h : b.length ≤ L) :
    lastN L (m ++ b)
      = m.drop (m.length + b.length - min (m.length + b.length) L) ++ b := by
  unfold lastN
  rw [List.length_append]
  by_cases hc : m.length + b.length ≤ L
  · rw [Nat.sub_eq_zero_of_le hc, Nat.sub_eq_zero_of_le (by omega), List.drop_zero,
        List.drop_zero]
  · rw [show min (m.length + b.length) L = L by omega,
        List.drop_append_of_le_length (by omega)]

theorem lastN_lastN_append (L : Nat) (x y : List Nat) :
    lastN L (lastN L x ++ y) = lastN L (x ++ y) := by
  by_cases hc : x.length ≤ L
  · rw [lastN_of_le hc]
  · unfold lastN
    have h1 : (x ++ y).drop (x.length - L) = x.drop (x.length - L) ++ y :=
      List.drop_append_of_le_length (by omega)
    rw [List.length_append, List.length_drop, List.length_append,
        show x.length - (x.length - L) + y.length - L = y.length by omega,
        show x.length + y.length - L = (x.length - L) + y.length by omega,
        ← List.drop_drop, h1]

/-! ## The ring-buffer abstraction theorems -/

theorem model_length (rb : RingBuffer) : rb.model.length = rb.len := by
  simp [RingBuffer.model]

/-- Core of the non-oversized `append` case: the new cells read in logical
    order are the old content with the `d` oldest bytes dropped, followed by
    the appended bytes.  Here `L, st, n` are the old `limit, start, len`,
    `d` the number of discarded bytes, and `r` the storage after the
    (possibly wrapping) two-part copy at the write position. -/
theorem small_append_core
    (L st n d wp : Nat) (buf b : List Nat)
    (hbuf : buf.length = L) (hst : st < L) (hn : n ≤ L) (hb : b.length < L)
    (hd : d = n + b.length - min (n + b.length) L)
    (hwp : wp = ((st + d) % L + (min (n + b.length) L - b.length)) % L)
    (r : List Nat)
    (hr : r = if min b.length (L - wp) < b.length
              then writeList (writeList buf wp (b.take (min b.length (L - wp)))) 0
                     (b.drop (min b.length (L - wp)))
              else writeList buf wp (b.take (min b.length (L - wp)))) :
    (List.range (min (n + b.length) L)).map (fun i => nth r (((st + d) % L + i) % L))
      = ((List.range n).map (fun i => nth buf ((st + i) % L))).drop d ++ b := by
  have hL : 0 < L := by omega
  have hdn : d ≤ n := by omega
  have hlen' : min (n + b.length) L = (n - d) + b.length := by omega
  have hwp2 : wp = (st + n) % L := by
    rw [hwp, hlen', Nat.add_sub_cancel, Nat.mod_add_mod,
        show st + d + (n - d) = st + n by omega]
  have hwpL : wp < L := by rw [hwp2]; exact Nat.mod_lt _ hL
  have hble : b.length ≤ L := by omega
  -- every cell of the written window, and every untouched cell
  have hin : ∀ j, j < b.length → nth r ((wp + j) % L) = nth b j :=
    two_copy_nth_in L buf b wp r hbuf hwpL hble hr
  have hout : ∀ p, p < L → (∀ j, j < b.length → p ≠ (wp + j) % L) → nth r p = nth buf p :=
    two_copy_nth_out L buf b wp r hbuf hwpL hble hr
  apply List.ext_getElem
  · simp [hlen']
  · intro i h1 h2
    rw [List.getElem_map, List.getElem_range]
    rw [List.length_map, List.length_range] at h1
    by_cases hi : i < n - d
    · -- reading back old content
      have hmod : ((st + d) % L + i) % L = (st + (d + i)) % L := by
        rw [Nat.mod_add_mod, Nat.add_assoc]
      have hnohit : ∀ j, j < b.length → (st + (d + i)) % L ≠ (wp + j) % L := by
        intro j hj heq
        rw [hwp2, Nat.mod_add_mod] at heq
        have hmq : st + (d + i) ≡ st + (n + j) [MOD L] := by
          show (st + (d + i)) % L = (st + (n + j)) % L
          rw [← Nat.add_assoc st n j]
          exact heq
        have hmq2 : d + i ≡ n + j [MOD L] := hmq.add_left_cancel' st
        have hdvd : L ∣ (n + j) - (d + i) := (Nat.modEq_iff_dvd' (by omega)).mp hmq2
        have hpos : 0 < (n + j) - (d + i) := by omega
        have := Nat.le_of_dvd hpos hdvd
        omega
      rw [hmod, hout _ (Nat.mod_lt _ hL) hnohit]
      rw [List.getElem_append_left (by simp; omega)]
      rw [List.getElem_drop, List.getElem_map, List.getElem_range]
    · -- reading back the newly appended bytes
      have hj : i - (n - d) < b.length := by omega
      have hmod : ((st + d) % L + i) % L = (wp + (i - (n - d))) % L := by
        rw [hwp2, Nat.mod_add_mod, Nat.mod_add_mod,
            show st + n + (i - (n - d)) = st + (d + i) by omega, Nat.add_assoc]
      rw [hmod, hin _ hj, nth_getElem hj]
      rw [List.getElem_append_right (by simp; omega)]
      congr 1
      simp

/-- The non-oversized branch of `append`, written with the named intermediate
    values. -/
theorem append_small_eq (rb : RingBuffer) (b : List Nat) (h : ¬ rb.limit ≤ b.length) :
    rb.append b = { rb with buf := rb.smallBuf b, start := rb.smallStart b,
                            len := rb.smallLen b } := by
  rw [RingBuffer.append, if_neg h]
  rfl

/-- Effect of one `append` on the well-formedness invariant and the abstract
    content: the new content is the last `limit` bytes of (old content ++ b). -/
theorem append_spec {rb : RingBuffer} (h : rb.wf) (b : List Nat) :
    (rb.append b).wf ∧ (rb.append b).limit = rb.limit ∧
    (rb.append b).model = lastN rb.limit (rb.model ++ b) := by
  obtain ⟨hbuf, hst, hn⟩ := h
  have hL : 0 < rb.limit := Nat.lt_of_le_of_lt (Nat.zero_le _) hst
  by_cases hover : rb.limit ≤ b.length
  · -- oversized input: full overwrite with the input's tail
    rw [RingBuffer.append, if_pos hover]
    refine ⟨⟨by simp [length_writeList, hbuf], hL, le_refl _⟩, rfl, ?_⟩
    rw [lastN_append_right rb.model hover]
    simp only [RingBuffer.model, RingBuffer.readAt]
    apply List.ext_getElem
    · rw [List.length_map, List.length_range, length_lastN]
      omega
    · intro i h1 h2
      rw [List.length_map, List.length_range] at h1
      simp only [List.getElem_map, List.getElem_range]
      rw [Nat.mod_eq_of_lt (show 0 + i < rb.limit by omega),
          nth_writeList_in _ _ _ _ (by simp; omega) (by omega)]
      rw [nth_getElem (by simp; omega)]
      rfl
  · -- input smaller than the capacity
    push_neg at hover
    rw [append_small_eq rb b (by omega)]
    by_cases hfree : rb.limit - rb.len < b.length
    · -- overwrites the oldest bytes
      have hss : rb.smallStart b
          = (rb.start + (b.length - (rb.limit - rb.len))) % rb.limit := by
        rw [RingBuffer.smallStart, if_pos hfree]
      have hsl : rb.smallLen b = rb.limit := by
        rw [RingBuffer.smallLen, if_pos hfree]
      have hlenmin : min (rb.len + b.length) rb.limit = rb.limit := by omega
      refine ⟨⟨?_, ?_, ?_⟩, rfl, ?_⟩
      · show (rb.smallBuf b).length = rb.limit
        simp only [RingBuffer.smallBuf]
        split <;> simp [length_writeList, hbuf]
      · show rb.smallStart b < rb.limit
        rw [hss]
        exact Nat.mod_lt _ hL
      · show rb.smallLen b ≤ rb.limit
        rw [hsl]
      · show RingBuffer.model _ = lastN rb.limit (rb.model ++ b)
        rw [lastN_append_small rb.model (by omega), model_length]
        have hdd : b.length - (rb.limit - rb.len)
            = rb.len + b.length - min (rb.len + b.length) rb.limit := by omega
        rw [← hdd]
        simp only [RingBuffer.model, RingBuffer.readAt, hss, hsl]
        have hwp : rb.smallWritePos b
            = ((rb.start + (b.length - (rb.limit - rb.len))) % rb.limit
              + (min (rb.len + b.length) rb.limit - b.length)) % rb.limit := by
          rw [RingBuffer.smallWritePos, hss, hsl, hlenmin]
          congr 1
          omega
        have hc := small_append_core rb.limit rb.start rb.len
          (b.length - (rb.limit - rb.len)) (rb.smallWritePos b) rb.buf b
          hbuf hst hn hover hdd hwp (rb.smallBuf b)
          (by rw [RingBuffer.smallBuf, RingBuffer.smallFirstPart])
        rw [hlenmin] at hc
        exact hc
    · -- fits in the free space
      have hss : rb.smallStart b = rb.start := by
        rw [RingBuffer.smallStart, if_neg hfree]
      have hsl : rb.smallLen b = rb.len + b.length := by
        rw [RingBuffer.smallLen, if_neg hfree]
      have hlenmin : min (rb.len + b.length) rb.limit = rb.len + b.length := by omega
      refine ⟨⟨?_, ?_, ?_⟩, rfl, ?_⟩
      · show (rb.smallBuf b).length = rb.limit
        simp only [RingBuffer.smallBuf]
        split <;> simp [length_writeList, hbuf]
      · show rb.smallStart b < rb.limit
        rw [hss]
        exact hst
      · show rb.smallLen b ≤ rb.limit
        rw [hsl]
        omega
      · show RingBuffer.model _ = lastN rb.limit (rb.model ++ b)
        rw [lastN_append_small rb.model (by omega), model_length,
            show rb.len + b.length - min (rb.len + b.length) rb.limit = 0 by omega,
            List.drop_zero]
        simp only [RingBuffer.model, RingBuffer.readAt, hss, hsl]
        have hwp : rb.smallWritePos b
            = ((rb.start + 0) % rb.limit
                + (min (rb.len + b.length) rb.limit - b.length)) % rb.limit := by
          rw [RingBuffer.smallWritePos, hss, hsl, hlenmin, Nat.add_zero,
              Nat.mod_eq_of_lt hst]
          congr 1
          omega
        have hc := small_append_core rb.limit rb.start rb.len 0 (rb.smallWritePos b)
          rb.buf b hbuf hst hn hover (by omega) hwp (rb.smallBuf b)
          (by rw [RingBuffer.smallBuf, RingBuffer.smallFirstPart])
        rw [hlenmin, List.drop_zero, Nat.add_zero, Nat.mod_eq_of_lt hst] at hc
        exact hc

/-- `toString` reads off exactly the abstract content: the slice-and-concat of
    the source equals the cell-by-cell read in logical order. -/
theorem contents_eq_model {rb : RingBuffer} (h : rb.wf) : rb.contents = rb.model := by
  obtain ⟨hbuf, hst, hn⟩ := h
  unfold RingBuffer.contents
  by_cases h0 : rb.len = 0
  · rw [if_pos h0]
    simp [RingBuffer.model, h0]
  · rw [if_neg h0]
    by_cases hwrap : rb.start + rb.len ≤ rb.limit
    · rw [if_pos hwrap]
      simp only [RingBuffer.model, RingBuffer.readAt]
      apply List.ext_getElem
      · simp [hbuf]
        omega
      · intro i h1 h2
        rw [List.length_take, List.length_drop] at h1
        simp only [List.getElem_map, List.getElem_range, List.getElem_take,
          List.getElem_drop]
        rw [Nat.mod_eq_of_lt (by omega), nth_getElem (by omega)]
    · rw [if_neg hwrap]
      simp only [RingBuffer.model, RingBuffer.readAt]
      apply List.ext_getElem
      · simp [hbuf]
        omega
      · intro i h1 h2
        rw [List.length_append, List.length_take, List.length_take,
            List.length_drop] at h1
        simp only [List.getElem_map, List.getElem_range]
        by_cases hi : i < rb.limit - rb.start
        · rw [List.getElem_append_left (by simp [hbuf]; omega)]
          simp only [List.getElem_take, List.getElem_drop]
          rw [Nat.mod_eq_of_lt (by omega), nth_getElem (by omega)]
        · rw [List.getElem_append_right (by simp [hbuf]; omega)]
          simp only [List.getElem_take]
          rw [show (rb.start + i) % rb.limit
                = i - ((rb.buf.drop rb.start).take (rb.limit - rb.start)).length by
              rw [List.length_take, List.length_drop, hbuf,
                  Nat.mod_eq_sub_mod (by omega), Nat.mod_eq_of_lt (by omega)]
              omega,
            nth_getElem (by simp [hbuf]; omega)]

/-- The buffer state after construction is well formed and empty (for any
    storage contents, as `allocUnsafe` leaves them arbitrary). -/
theorem new_wf {C : Nat} (hC : 1 ≤ C) (buf0 : List Nat) (h0 : buf0.length = C) :
    (RingBuffer.mk buf0 C 0 0).wf ∧ (RingBuffer.mk buf0 C 0 0).model = [] :=
  ⟨⟨h0, hC, Nat.zero_le _⟩, rfl⟩

theorem foldl_append_init (cs : List (List Nat)) :
    ∀ a : List Nat, cs.foldl (· ++ ·) a = a ++ cs.foldl (· ++ ·) [] := by
  induction cs with
  | nil => intro a; simp
  | cons c cs ih =>
      intro a
      rw [List.foldl_cons, List.foldl_cons, ih (a ++ c), ih ([] ++ c)]
      simp

/-- The fold of `append` over any chunk sequence, in terms of the abstract
    content. -/
theorem appendAll_spec {rb : RingBuffer} (h : rb.wf) (chunks : List (List Nat)) :
    (rb.appendAll chunks).wf ∧ (rb.appendAll chunks).limit = rb.limit ∧
    (rb.appendAll chunks).model
      = lastN rb.limit (rb.model ++ chunks.foldl (· ++ ·) []) := by
  induction chunks generalizing rb with
  | nil =>
      refine ⟨h, rfl, ?_⟩
      rw [List.foldl_nil, List.append_nil,
          lastN_of_le (by rw [model_length]; exact h.2.2)]
      rfl
  | cons c cs ih =>
      obtain ⟨h1, h2, h3⟩ := append_spec h c
      obtain ⟨g1, g2, g3⟩ := ih h1
      refine ⟨g1, by rw [RingBuffer.appendAll, List.foldl_cons] at *; rw [g2, h2], ?_⟩
      rw [RingBuffer.appendAll, List.foldl_cons] at *
      rw [g3, h3, h2, lastN_lastN_append, List.foldl_cons, List.append_assoc,
          foldl_append_init cs ([] ++ c)]
      simp

/-- C1: for every capacity `C ≥ 1` and every finite sequence of appends to a
    buffer of capacity `C` (with arbitrary initial storage, as `allocUnsafe`
    leaves it), `toString` returns the last `min(total bytes appended, C)`
    bytes of the concatenation of all appended chunks in chronological order;
    in particular a single append of a chunk of length `≥ C` leaves exactly
    the last `C` bytes of that chunk. -/
theorem claim_C1 (C : Nat) (hC : 1 ≤ C) (buf0 : List Nat) (h0 : buf0.length = C)
    (chunks : List (List Nat)) :
    (RingBuffer.appendAll (RingBuffer.mk buf0 C 0 0) chunks).contents
      = lastN C (chunks.foldl (· ++ ·) []) ∧
    ∀ b : List Nat, C ≤ b.length →
      ((RingBuffer.mk buf0 C 0 0).append b).contents = lastN C b := by
  have hwf : (RingBuffer.mk buf0 C 0 0).wf := ⟨h0, hC, Nat.zero_le _⟩
  have hm0 : (RingBuffer.mk buf0 C 0 0).model = [] := rfl
  constructor
  · obtain ⟨g1, g2, g3⟩ := appendAll_spec hwf chunks
    rw [contents_eq_model g1, g3, hm0, List.nil_append]
  · intro b hb
    obtain ⟨g1, g2, g3⟩ := append_spec hwf b
    rw [contents_eq_model g1, g3, hm0, List.nil_append]

theorem claim_C1_witness :
    (1 ≤ 10 ∧
     (RingBuffer.appendAll (RingBuffer.mk (List.replicate 10 0) 10 0 0)
        [[1, 2, 3, 4, 5, 6, 7, 8], [24, 25, 26]]).contents
       = lastN 10 ([[1, 2, 3, 4, 5, 6, 7, 8], [24, 25, 26]].foldl (· ++ ·) [])) ∧
    (5 ≤ 7 ∧
     ((RingBuffer.mk (List.replicate 5 0) 5 0 0).append [1, 2, 3, 4, 5, 6, 7]).contents
       = lastN 5 [1, 2, 3, 4, 5, 6, 7]) :=
  ⟨⟨by decide,
    (claim_C1 10 (by decide) (List.replicate 10 0) (by decide)
      [[1, 2, 3, 4, 5, 6, 7, 8], [24, 25, 26]]).1⟩,
   ⟨by decide,
    (claim_C1 5 (by decide) (List.replicate 5 0) (by decide) []).2
      [1, 2, 3, 4, 5, 6, 7] (by decide)⟩⟩

/-- C9: the representation invariant (`start < C`, `len ≤ C`, storage of
    exactly `C` cells) holds after construction and is preserved by every
    append, and every storage index `append` writes and `toString` reads is
    within `[0, C)`. -/
theorem claim_C9 (C : Nat) (hC : 1 ≤ C) (buf0 : List Nat) (h0 : buf0.length = C)
    (rb : RingBuffer) (hwf : rb.wf) (b : List Nat) :
    (RingBuffer.mk buf0 C 0 0).wf ∧
    (rb.append b).wf ∧
    (∀ i ∈ rb.appendWriteIndices b, i < rb.limit) ∧
    (∀ i ∈ rb.contentsReadIndices, i < rb.limit) := by
  have hL : 0 < rb.limit := Nat.lt_of_le_of_lt (Nat.zero_le _) hwf.2.1
  refine ⟨⟨h0, hC, Nat.zero_le _⟩, (append_spec hwf b).1, ?_, ?_⟩
  · intro i hi
    rw [RingBuffer.appendWriteIndices] at hi
    by_cases hover : rb.limit ≤ b.length
    · rw [if_pos hover] at hi
      exact List.mem_range.mp hi
    · rw [if_neg hover] at hi
      simp only at hi
      rcases List.mem_append.mp hi with h1 | h1
      · obtain ⟨j, hj, rfl⟩ := List.mem_map.mp h1
        have hj2 := List.mem_range.mp hj
        have hwp : (rb.smallStart b + rb.smallLen b - b.length) % rb.limit
            < rb.limit := Nat.mod_lt _ hL
        rw [RingBuffer.smallStart, RingBuffer.smallLen] at hwp
        omega
      · have hj := List.mem_range.mp h1
        have hwp : (rb.smallStart b + rb.smallLen b - b.length) % rb.limit
            < rb.limit := Nat.mod_lt _ hL
        rw [RingBuffer.smallStart, RingBuffer.smallLen] at hwp
        omega
  · intro i hi
    rw [RingBuffer.contentsReadIndices] at hi
    by_cases h0' : rb.len = 0
    · rw [if_pos h0'] at hi
      cases hi
    · rw [if_neg h0'] at hi
      by_cases hwrap : rb.start + rb.len ≤ rb.limit
      · rw [if_pos hwrap] at hi
        obtain ⟨j, hj, rfl⟩ := List.mem_map.mp hi
        have := List.mem_range.mp hj
        omega
      · rw [if_neg hwrap] at hi
        simp only at hi
        rcases List.mem_append.mp hi with h1 | h1
        · obtain ⟨j, hj, rfl⟩ := List.mem_map.mp h1
          have := List.mem_range.mp hj
          omega
        · have := List.mem_range.mp h1
          have hn := hwf.2.2
          have hs := hwf.2.1
          omega

theorem claim_C9_witness :
    (1 ≤ 4 ∧
     (RingBuffer.mk [0, 0, 0, 0] 4 0 0).wf ∧
     ((RingBuffer.mk [5, 6, 7] 3 1 2).append [9, 9]).wf ∧
     (∀ i ∈ (RingBuffer.mk [5, 6, 7] 3 1 2).appendWriteIndices [9, 9], i < 3) ∧
     (∀ i ∈ (RingBuffer.mk [5, 6, 7] 3 1 2).contentsReadIndices, i < 3)) :=
  ⟨by decide,
   (claim_C9 4 (by decide) [0, 0, 0, 0] (by decide)
      (RingBuffer.mk [5, 6, 7] 3 1 2) (by decide) [9, 9]).1,
   (claim_C9 4 (by decide) [0, 0, 0, 0] (by decide)
      (RingBuffer.mk [5, 6, 7] 3 1 2) (by decide) [9, 9]).2.1,
   (claim_C9 4 (by decide) [0, 0, 0, 0] (by decide)
      (RingBuffer.mk [5, 6, 7] 3 1 2) (by decide) [9, 9]).2.2.1,
   (claim_C9 4 (by decide) [0, 0, 0, 0] (by decide)
      (RingBuffer.mk [5, 6, 7] 3 1 2) (by decide) [9, 9]).2.2.2⟩

/-- C10: appending an empty byte sequence is an identity operation on every
    reachable (well-formed) buffer state — the whole state, and in particular
    `start`, `len` and the result of `toString`, are unchanged — and
    `toString` is a pure read, so two consecutive calls on the unchanged
    state return equal results. -/
theorem claim_C10 (rb : RingBuffer) (h : rb.wf) :
    rb.append [] = rb ∧
    (rb.append []).start = rb.start ∧ (rb.append []).len = rb.len ∧
    (rb.append []).contents = rb.contents ∧
    (rb.append []).contents = (rb.append []).contents := by
  have hL : 0 < rb.limit := Nat.lt_of_le_of_lt (Nat.zero_le _) h.2.1
  have hid : rb.append [] = rb := by
    rw [append_small_eq rb [] (by simp; omega)]
    have h1 : rb.smallStart [] = rb.start := by
      rw [RingBuffer.smallStart, if_neg (by simp)]
    have h2 : rb.smallLen [] = rb.len := by
      rw [RingBuffer.smallLen, if_neg (by simp)]
      simp
    have h3 : rb.smallBuf [] = rb.buf := by
      rw [RingBuffer.smallBuf]
      simp [RingBuffer.smallFirstPart, writeList]
    rw [h1, h2, h3]
  exact ⟨hid, by rw [hid], by rw [hid], by rw [hid], rfl⟩

theorem claim_C10_witness :
    (RingBuffer.mk [7, 8] 2 1 1).append [] = RingBuffer.mk [7, 8] 2 1 1 ∧
    ((RingBuffer.mk [7, 8] 2 1 1).append []).start = 1 ∧
    ((RingBuffer.mk [7, 8] 2 1 1).append []).len = 1 ∧
    ((RingBuffer.mk [7, 8] 2 1 1).append []).contents
      = (RingBuffer.mk [7, 8] 2 1 1).contents :=
  ⟨(claim_C10 (RingBuffer.mk [7, 8] 2 1 1) (by decide)).1,
   (claim_C10 (RingBuffer.mk [7, 8] 2 1 1) (by decide)).2.1,
   (claim_C10 (RingBuffer.mk [7, 8] 2 1 1) (by decide)).2.2.1,
   (claim_C10 (RingBuffer.mk [7, 8] 2 1 1) (by decide)).2.2.2.1⟩

/-! ## Session-namer theorems -/

/-- The gap scan, on a strictly ascending list all of whose members are at
    least `next`, returns the least value `≥ next` missing from the list. -/
theorem scanNext_spec : ∀ (l : List Nat) (next : Nat),
    l.Pairwise (· < ·) → (∀ m ∈ l, next ≤ m) →
    next ≤ scanNext l next ∧ scanNext l next ∉ l ∧
      ∀ j, next ≤ j → j < scanNext l next → j ∈ l
  | [], next, _, _ =>
      ⟨le_refl _, by simp, fun _ h1 h2 => by rw [scanNext] at h2; omega⟩
  | num :: rest, next, hp, hge => by
      rw [scanNext]
      have hp' := List.pairwise_cons.mp hp
      by_cases h : num = next
      · rw [if_pos h]
        have ih := scanNext_spec rest (next + 1) hp'.2
          (fun m hm => by have := hp'.1 m hm; omega)
        refine ⟨by omega, ?_, ?_⟩
        · intro hmem
          rcases List.mem_cons.mp hmem with h1 | h1
          · omega
          · exact ih.2.1 h1
        · intro j h1 h2
          by_cases hj : j = next
          · rw [hj, ← h]
            exact List.mem_cons_self _ _
          · exact List.mem_cons_of_mem _ (ih.2.2 j (by omega) h2)
      · rw [if_neg h]
        refine ⟨le_refl _, ?_, fun _ h1 h2 => absurd h2 (by omega)⟩
        intro hmem
        rcases List.mem_cons.mp hmem with h1 | h1
        · exact h h1.symm
        · have hlt := hp'.1 next h1
          have := hge num (List.mem_cons_self _ _)
          omega

/-- Sorting a duplicate-free list ascendingly yields a strictly ascending
    list. -/
theorem sortAsc_pairwise_lt (l : List Nat) (hd : l.Pairwise (· ≠ ·)) :
    (sortAsc l).Pairwise (· < ·) := by
  have hs : List.Sorted (· ≤ ·) (sortAsc l) := List.sorted_insertionSort _ l
  have hperm : (sortAsc l).Perm l := List.perm_insertionSort _ l
  have hd' : (sortAsc l).Pairwise (· ≠ ·) :=
    (hperm.pairwise_iff (fun h => h.symm)).mpr hd
  exact (hs.and hd').imp (fun hab => lt_of_le_of_ne hab.1 hab.2)

theorem mem_sortAsc {l : List Nat} {a : Nat} : a ∈ sortAsc l ↔ a ∈ l :=
  (List.perm_insertionSort _ l).mem_iff

theorem termName_one : termName 1 = "Term 1" := by
  simp [termName, natToDecimal]
  decide

/-- C2 counterexample: on the name set `{"Term 0", "Term 1"}` — in which the
    only name of the form `Term <positive integer>` is `Term 1`, so the
    smallest positive integer not occurring as such a suffix is `2` — the
    allocator nevertheless returns `Term 1`: the name `Term 0`, which does
    not carry a positive integer, is not ignored by the scan. -/
theorem claim_C2_counterexample :
    getNextSessionNumber ["Term 0", "Term 1"] = 1 ∧
    nextSessionName ["Term 0", "Term 1"] = "Term 1" ∧
    "Term 1" ∈ ["Term 0", "Term 1"] ∧
    parseTermNumber "Term 1" = some 1 ∧ 1 ≤ 1 := by
  have h1 : getNextSessionNumber ["Term 0", "Term 1"] = 1 := by decide
  refine ⟨h1, ?_, by decide, by decide, le_refl 1⟩
  rw [nextSessionName, h1, termName_one]

/-- C2 (amended): for every finite set of display names in which the names
    matching `^Term (\d+)$` parse to pairwise-distinct *positive* integers
    (in particular no name parses to 0), the allocator returns `Term k` where
    `k` is the smallest positive integer not occurring among the parsed
    numbers; non-matching names are ignored, and the empty name set yields
    `Term 1`. -/
theorem claim_C2 (names : List String)
    (hpos : ∀ n ∈ usedNumbers names, 1 ≤ n)
    (hdist : (usedNumbers names).Pairwise (· ≠ ·)) :
    nextSessionName names = termName (getNextSessionNumber names) ∧
    1 ≤ getNextSessionNumber names ∧
    getNextSessionNumber names ∉ usedNumbers names ∧
    (∀ j, 1 ≤ j → j < getNextSessionNumber names → j ∈ usedNumbers names) ∧
    (names = [] → getNextSessionNumber names = 1) := by
  have hs := scanNext_spec (sortAsc (usedNumbers names)) 1
    (sortAsc_pairwise_lt _ hdist)
    (fun m hm => hpos m (mem_sortAsc.mp hm))
  refine ⟨rfl, hs.1, ?_, ?_, ?_⟩
  · intro hmem
    exact hs.2.1 (mem_sortAsc.mpr hmem)
  · intro j h1 h2
    exact mem_sortAsc.mp (hs.2.2 j h1 h2)
  · intro h
    rw [h]
    rfl

theorem claim_C2_witness :
    (∀ n ∈ usedNumbers ["Term 1", "Term 2", "Term 4"], 1 ≤ n) ∧
    (usedNumbers ["Term 1", "Term 2", "Term 4"]).Pairwise (· ≠ ·) ∧
    1 ≤ getNextSessionNumber ["Term 1", "Term 2", "Term 4"] ∧
    getNextSessionNumber ["Term 1", "Term 2", "Term 4"]
      ∉ usedNumbers ["Term 1", "Term 2", "Term 4"] ∧
    (∀ j, 1 ≤ j → j < getNextSessionNumber ["Term 1", "Term 2", "Term 4"] →
      j ∈ usedNumbers ["Term 1", "Term 2", "Term 4"]) :=
  ⟨by decide, by decide,
   (claim_C2 ["Term 1", "Term 2", "Term 4"] (by decide) (by decide)).2.1,
   (claim_C2 ["Term 1", "Term 2", "Term 4"] (by decide) (by decide)).2.2.1,
   (claim_C2 ["Term 1", "Term 2", "Term 4"] (by decide) (by decide)).2.2.2.1⟩

/-! ## Server event-handler theorems -/

theorem lookupSession_not_live {s : ServerState} {sid : String} (h : sid ∉ s.live) :
    lookupSession s sid = none := by
  rw [lookupSession, if_neg]
  intro hc
  exact h (List.elem_iff.mp hc)

/-- No event other than a `create-session` registering `sid` puts `sid` into
    the registry. -/
theorem step_not_live {s : ServerState} {sid : String} (e : Event)
    (h : sid ∉ s.live) (hno : ¬ createsId e sid) : sid ∉ (step s e).1.live := by
  cases e with
  | connect v => exact h
  | subscribe v sid2 =>
      cases hq : lookupSession s sid2 with
      | none => simpa only [step, hq] using h
      | some sess => simpa only [step, hq] using h
  | createSession v ok newId =>
      cases ok with
      | false => simpa only [step, createSessionOp, Bool.false_eq_true, if_false] using h
      | true =>
          simp only [step, createSessionOp, if_true]
          intro hmem
          rcases List.mem_append.mp hmem with h1 | h1
          · exact h h1
          · simp only [List.mem_singleton] at h1
            exact hno (by simp [createsId, h1])
  | terminalInput v sid2 data =>
      cases hq : lookupSession s sid2 with
      | none => simpa only [step, hq] using h
      | some sess => simpa only [step, hq] using h
  | terminalResize v sid2 cols rows rfail =>
      cases hq : lookupSession s sid2 with
      | none => simpa only [step, hq] using h
      | some sess =>
          cases rfail with
          | false => simpa only [step, hq, Bool.false_eq_true, if_false] using h
          | true => simpa only [step, hq, if_true] using h
  | ptyData sid2 chunk =>
      cases hq : lookupStore s sid2 with
      | none => simpa only [step, hq] using h
      | some sess => simpa only [step, hq] using h
  | ptyExit sid2 c =>
      simp only [step]
      intro hmem
      exact h (List.mem_of_mem_erase hmem)

theorem runEvents_not_live {sid : String} : ∀ (evts : List Event) (s : ServerState),
    sid ∉ s.live → (∀ e ∈ evts, ¬ createsId e sid) →
    sid ∉ (runEvents s evts).1.live
  | [], _, h, _ => h
  | e :: rest, s, h, hno =>
      runEvents_not_live rest _
        (step_not_live e h (hno e (List.mem_cons_self _ _)))
        (fun e' he' => hno e' (List.mem_cons_of_mem _ he'))

theorem mem_map_sessionClosed {conn : List Nat} {v : Nat} {sid : String} :
    Msg.sessionClosed v sid ∈ conn.map (fun w => Msg.sessionClosed w sid) ↔ v ∈ conn := by
  simp [List.mem_map]

theorem count_map_sessionClosed (conn : List Nat) (v : Nat) (sid : String)
    (h : conn.Nodup) :
    (conn.map (fun w => Msg.sessionClosed w sid)).count (Msg.sessionClosed v sid)
      = if v ∈ conn then 1 else 0 := by
  induction conn with
  | nil => simp
  | cons a rest ih =>
      have hn := List.nodup_cons.mp h
      rw [List.map_cons, List.count_cons, ih hn.2]
      by_cases hv : v = a
      · subst hv
        simp [hn.1]
      · simp [hv, Ne.symm hv]

/-- `session-closed` notifications for `sid` are emitted only by the handler
    of `sid`'s own pty exit. -/
theorem sessionClosed_only_exit (s : ServerState) (e : Event) (v : Nat) (sid : String)
    (h : ∀ c, e ≠ .ptyExit sid c) :
    Msg.sessionClosed v sid ∉ (step s e).2 := by
  cases e with
  | connect w => simp [step]
  | subscribe w sid2 =>
      cases hq : lookupSession s sid2 with
      | none => simp [step, hq]
      | some sess =>
          simp only [step, hq]
          split <;> simp
  | createSession w ok newId =>
      cases ok with
      | false => simp [step, createSessionOp]
      | true => simp [step, createSessionOp]
  | terminalInput w sid2 data =>
      cases hq : lookupSession s sid2 with
      | none => simp [step, hq]
      | some sess => simp [step, hq]
  | terminalResize w sid2 cols rows rfail =>
      cases hq : lookupSession s sid2 with
      | none => simp [step, hq]
      | some sess =>
          cases rfail with
          | false => simp [step, hq]
          | true => simp [step, hq]
  | ptyData sid2 chunk =>
      cases hq : lookupStore s sid2 with
      | none => simp [step, hq]
      | some sess => simp [step, hq]
  | ptyExit sid2 c =>
      simp only [step, List.mem_map]
      rintro ⟨w, hw, heq⟩
      injection heq with h1 h2
      exact h c (by rw [h2])

/-- C3: when a registered session's process exits, the session is removed from
    the registry (and, absent uuid reuse, every subsequent lookup of its id
    fails), and a `session-closed` notification carrying its id is sent to
    every connected viewer — once each; no other handler ever emits such a
    notification, so it is broadcast exactly once per session. -/
theorem claim_C3 (s : ServerState) (sid : String) (code : Nat)
    (hconn : s.connected.Nodup) (hlive : s.live.Nodup) :
    lookupSession (step s (.ptyExit sid code)).1 sid = none ∧
    (∀ v ∈ s.connected, Msg.sessionClosed v sid ∈ (step s (.ptyExit sid code)).2) ∧
    (∀ v, ((step s (.ptyExit sid code)).2).count (Msg.sessionClosed v sid)
        = if v ∈ s.connected then 1 else 0) ∧
    (∀ evts, (∀ e ∈ evts, ¬ createsId e sid) →
      lookupSession (runEvents (step s (.ptyExit sid code)).1 evts).1 sid = none) ∧
    (∀ (s' : ServerState) (e : Event) (v : Nat), (∀ c, e ≠ .ptyExit sid c) →
      Msg.sessionClosed v sid ∉ (step s' e).2) := by
  have herase : sid ∉ (step s (.ptyExit sid code)).1.live :=
    hlive.not_mem_erase
  refine ⟨lookupSession_not_live herase, ?_, ?_, ?_, ?_⟩
  · intro v hv
    exact mem_map_sessionClosed.mpr hv
  · intro v
    exact count_map_sessionClosed s.connected v sid hconn
  · intro evts hno
    exact lookupSession_not_live (runEvents_not_live evts _ herase hno)
  · intro s' e v he
    exact sessionClosed_only_exit s' e v sid he

theorem claim_C3_witness :
    sampleState.connected.Nodup ∧ sampleState.live.Nodup ∧
    lookupSession (step sampleState (.ptyExit "a" 0)).1 "a" = none ∧
    (∀ v ∈ sampleState.connected,
      Msg.sessionClosed v "a" ∈ (step sampleState (.ptyExit "a" 0)).2) ∧
    (∀ v, ((step sampleState (.ptyExit "a" 0)).2).count (Msg.sessionClosed v "a")
        = if v ∈ sampleState.connected then 1 else 0) :=
  ⟨by decide, by decide,
   (claim_C3 sampleState "a" 0 (by decide) (by decide)).1,
   (claim_C3 sampleState "a" 0 (by decide) (by decide)).2.1,
   (claim_C3 sampleState "a" 0 (by decide) (by decide)).2.2.1⟩

/-- C4: a viewer subscribing to an existing session joins its subscriber
    group; if the history buffer is non-empty at that instant its full
    contents are emitted to that viewer as exactly one `history` message — and
    no live `output` message is part of the subscribe handling, so in the
    combined trace the replay precedes every live chunk delivered afterwards;
    if the buffer is empty, nothing is emitted. -/
theorem claim_C4 (s : ServerState) (v : Nat) (sid : String) (sess : Session)
    (h : lookupSession s sid = some sess) (rest : List Event) :
    ((v, sid) ∈ (step s (.subscribe v sid)).1.rooms) ∧
    (sess.history.contents.length ≠ 0 →
      (step s (.subscribe v sid)).2 = [Msg.history v sid sess.history.contents]) ∧
    (sess.history.contents.length = 0 → (step s (.subscribe v sid)).2 = []) ∧
    (∀ d, Msg.output v sid d ∉ (step s (.subscribe v sid)).2) ∧
    ((runEvents s (.subscribe v sid :: rest)).2
      = (step s (.subscribe v sid)).2 ++ (runEvents (step s (.subscribe v sid)).1 rest).2) := by
  refine ⟨?_, ?_, ?_, ?_, rfl⟩
  · simp only [step, h, joinRoom]
    split
    · next hc => exact List.elem_iff.mp hc
    · exact List.mem_append.mpr (Or.inr (List.mem_singleton.mpr rfl))
  · intro hne
    simp [step, h, hne]
  · intro hz
    simp [step, h, hz]
  · intro d
    simp only [step, h]
    split <;> simp

theorem claim_C4_witness :
    lookupSession sampleStateHello "a" = some sampleSessionHello ∧
    ((9, "a") ∈ (step sampleStateHello (.subscribe 9 "a")).1.rooms) ∧
    (sampleSessionHello.history.contents.length ≠ 0 →
      (step sampleStateHello (.subscribe 9 "a")).2
        = [Msg.history 9 "a" sampleSessionHello.history.contents]) ∧
    (∀ d, Msg.output 9 "a" d ∉ (step sampleStateHello (.subscribe 9 "a")).2) :=
  ⟨by decide,
   (claim_C4 sampleStateHello 9 "a" sampleSessionHello (by decide) []).1,
   (claim_C4 sampleStateHello 9 "a" sampleSessionHello (by decide) []).2.1,
   (claim_C4 sampleStateHello 9 "a" sampleSessionHello (by decide) []).2.2.2.1⟩

/-! ## Fanout (pty `data`) support lemmas -/

theorem find?_updateStore : ∀ (store : List (String × Session)) (sid : String)
    (f : Session → Session),
    ((updateStore store sid f).find? (fun p => p.1 == sid))
      = ((store.find? (fun p => p.1 == sid)).map (fun p => (p.1, f p.2)))
  | [], _, _ => rfl
  | p :: rest, sid, f => by
      rw [updateStore, List.map_cons]
      by_cases hq : p.1 = sid
      · rw [if_pos (by simp [hq])]
        rw [List.find?_cons_of_pos _ (by simp [hq]), List.find?_cons_of_pos _ (by simp [hq])]
        rfl
      · rw [if_neg (by simp [hq])]
        rw [List.find?_cons_of_neg _ (by simp [hq]), List.find?_cons_of_neg _ (by simp [hq])]
        exact find?_updateStore rest sid f

theorem lookupStore_update {s : ServerState} {sid : String} {sess : Session}
    (h : lookupStore s sid = some sess) (f : Session → Session) :
    lookupStore { s with store := updateStore s.store sid f } sid = some (f sess) := by
  rw [lookupStore] at h ⊢
  rw [find?_updateStore]
  rcases hf : s.store.find? (fun p => p.1 == sid) with _ | p
  · rw [hf] at h
    cases h
  · rw [hf] at h
    rw [hf]
    have hp : p.2 = sess := Option.some.inj h
    show some (f p.2) = some (f sess)
    rw [hp]

theorem count_members (rooms : List (Nat × String)) (v : Nat) (sid : String)
    (h : rooms.Nodup) :
    ((rooms.filter (fun p => p.2 == sid)).map (·.1)).count v
      = if (v, sid) ∈ rooms then 1 else 0 := by
  induction rooms with
  | nil => simp
  | cons p rest ih =>
      have hn := List.nodup_cons.mp h
      rw [List.filter_cons]
      by_cases h2 : p.2 = sid
      · rw [if_pos (by simp [h2])]
        rw [List.map_cons, List.count_cons, ih hn.2]
        by_cases h1 : p.1 = v
        · have hp : p = (v, sid) := by
            cases p
            simp at h1 h2
            rw [h1, h2]
          rw [hp]
          simp [hn.1, hp ▸ hn.1]
        · have hp : p ≠ (v, sid) := by
            intro hc
            rw [hc] at h1
            exact h1 rfl
          simp [h1, Ne.symm h1, Ne.symm hp]
      · rw [if_neg (by simp [h2])]
        rw [ih hn.2]
        have hp : p ≠ (v, sid) := by
          intro hc
          rw [hc] at h2
          exact h2 rfl
        simp [Ne.symm hp]

theorem outputsTo_append (v : Nat) (sid : String) (xs ys : List Msg) :
    outputsTo v sid (xs ++ ys) = outputsTo v sid xs ++ outputsTo v sid ys := by
  rw [outputsTo, outputsTo, outputsTo, List.filterMap_append]

theorem outputsTo_fanout_nil (v : Nat) (sid : String) (d : List Nat)
    (members : List Nat) (hv : v ∉ members) :
    outputsTo v sid (members.map (fun w => Msg.output w sid d)) = [] := by
  induction members with
  | nil => rfl
  | cons a rest ih =>
      have ha : ¬ (a = v ∧ sid = sid) := by
        intro hc
        exact hv (hc.1 ▸ List.mem_cons_self _ _)
      rw [List.map_cons, outputsTo, List.filterMap_cons, outputValue, if_neg ha]
      exact ih (fun hc => hv (List.mem_cons_of_mem _ hc))

theorem outputsTo_fanout (v : Nat) (sid : String) (d : List Nat)
    (members : List Nat) (hc : members.count v = 1) :
    outputsTo v sid (members.map (fun w => Msg.output w sid d)) = [d] := by
  induction members with
  | nil => simp at hc
  | cons a rest ih =>
      rw [List.map_cons, outputsTo, List.filterMap_cons]
      by_cases ha : a = v
      · subst ha
        have h0 : rest.count a = 0 := by
          rw [List.count_cons_self] at hc
          omega
        rw [outputValue, if_pos ⟨rfl, rfl⟩]
        have := outputsTo_fanout_nil a sid d rest (List.count_eq_zero.mp h0)
        rw [outputsTo] at this
        rw [this]
      · have hrest : rest.count v = 1 := by
          rw [List.count_cons_of_ne (fun hh => ha hh.symm)] at hc
          exact hc
        have ha2 : ¬ (a = v ∧ sid = sid) := fun hcc => ha hcc.1
        rw [outputValue, if_neg ha2]
        have := ih hrest
        rw [outputsTo] at this
        rw [this]

/-- Running a pure sequence of pty `data` events for a registered session
    delivers exactly that chunk sequence, in order, to a viewer who is in the
    room exactly once throughout. -/
theorem outputsTo_run (sid : String) (v : Nat) : ∀ (ds : List (List Nat))
    (s : ServerState) (sess : Session),
    lookupStore s sid = some sess →
    (roomMembers s sid).count v = 1 →
    outputsTo v sid (runEvents s (ds.map (Event.ptyData sid))).2 = ds
  | [], _, _, _, _ => rfl
  | d :: ds, s, sess, hs, hc => by
      rw [List.map_cons, runEvents]
      have hstep : (step s (.ptyData sid d)).2
          = (roomMembers s sid).map (fun w => Msg.output w sid d) := by
        simp only [step, hs]
      have hstate : (step s (.ptyData sid d)).1
          = { s with store := (updateStore s.store sid
                (fun ss => { ss with history := ss.history.append d })) } := by
        simp only [step, hs]
      show outputsTo v sid ((step s (.ptyData sid d)).2
            ++ (runEvents (step s (.ptyData sid d)).1 (ds.map (Event.ptyData sid))).2)
          = d :: ds
      rw [outputsTo_append, hstep, outputsTo_fanout v sid d _ hc]
      rw [outputsTo_run sid v ds (step s (.ptyData sid d)).1
            { sess with history := sess.history.append d }
            (by rw [hstate]; exact lookupStore_update hs _)
            (by rw [hstate]; exact hc)]
      rfl

/-- C5: each pty output chunk is appended to the session's history and the
    identical chunk is emitted to every current member of the subscriber
    group; over a run of output events every member who stays subscribed
    receives exactly the produced chunk sequence in order, so any two such
    viewers receive identical ordered sequences. -/
theorem claim_C5 (s : ServerState) (sid : String) (sess : Session)
    (h : lookupStore s sid = some sess) (hrooms : s.rooms.Nodup)
    (chunk : List Nat) (ds : List (List Nat)) :
    lookupStore (step s (.ptyData sid chunk)).1 sid
      = some { sess with history := sess.history.append chunk } ∧
    (step s (.ptyData sid chunk)).2
      = (roomMembers s sid).map (fun v => Msg.output v sid chunk) ∧
    (∀ v ∈ roomMembers s sid,
      Msg.output v sid chunk ∈ (step s (.ptyData sid chunk)).2) ∧
    (∀ v, (v, sid) ∈ s.rooms →
      outputsTo v sid (runEvents s (ds.map (Event.ptyData sid))).2 = ds) ∧
    (∀ v w, (v, sid) ∈ s.rooms → (w, sid) ∈ s.rooms →
      outputsTo v sid (runEvents s (ds.map (Event.ptyData sid))).2
        = outputsTo w sid (runEvents s (ds.map (Event.ptyData sid))).2) := by
  have hcount : ∀ u, (u, sid) ∈ s.rooms → (roomMembers s sid).count u = 1 := by
    intro u hu
    rw [roomMembers, count_members s.rooms u sid hrooms, if_pos hu]
  refine ⟨?_, by simp only [step, h], ?_, ?_, ?_⟩
  · have hst1 : (step s (.ptyData sid chunk)).1
        = { s with store := (updateStore s.store sid
              (fun ss => { ss with history := ss.history.append chunk })) } := by
      simp only [step, h]
    rw [hst1]
    exact lookupStore_update h _
  · intro v hv
    simp only [step, h]
    exact List.mem_map.mpr ⟨v, hv, rfl⟩
  · intro v hv
    exact outputsTo_run sid v ds s sess h (hcount v hv)
  · intro v w hv hw
    rw [outputsTo_run sid v ds s sess h (hcount v hv),
        outputsTo_run sid w ds s sess h (hcount w hw)]

theorem claim_C5_witness :
    lookupStore sampleStateHello "a" = some sampleSessionHello ∧
    sampleStateHello.rooms.Nodup ∧
    lookupStore (step sampleStateHello (.ptyData "a" [1])).1 "a"
      = some { sampleSessionHello with
               history := sampleSessionHello.history.append [1] } ∧
    (∀ v, (v, "a") ∈ sampleStateHello.rooms →
      outputsTo v "a"
        (runEvents sampleStateHello ([[1], [2]].map (Event.ptyData "a"))).2
        = [[1], [2]]) :=
  ⟨by decide, by decide,
   (claim_C5 sampleStateHello "a" sampleSessionHello (by decide) (by decide)
      [1] [[1], [2]]).1,
   (claim_C5 sampleStateHello "a" sampleSessionHello (by decide) (by decide)
      [1] [[1], [2]]).2.2.2.1⟩

/-- C6: the subscribe, input and resize handlers referencing an unregistered
    session id return normally with the state unchanged and nothing emitted —
    no message, no pty action, no registry or room mutation. -/
theorem claim_C6 (s : ServerState) (sid : String) (h : lookupSession s sid = none)
    (v : Nat) (data : List Nat) (cols rows : Nat) (rfail : Bool) :
    step s (.subscribe v sid) = (s, []) ∧
    step s (.terminalInput v sid data) = (s, []) ∧
    step s (.terminalResize v sid cols rows rfail) = (s, []) := by
  refine ⟨?_, ?_, ?_⟩ <;> simp [step, h]

theorem claim_C6_witness :
    lookupSession sampleState "zzz" = none ∧
    step sampleState (.subscribe 7 "zzz") = (sampleState, []) ∧
    step sampleState (.terminalInput 7 "zzz" [3]) = (sampleState, []) ∧
    step sampleState (.terminalResize 7 "zzz" 80 30 false) = (sampleState, []) :=
  ⟨by decide,
   (claim_C6 sampleState "zzz" (by decide) 7 [3] 80 30 false).1,
   (claim_C6 sampleState "zzz" (by decide) 7 [3] 80 30 false).2.1,
   (claim_C6 sampleState "zzz" (by decide) 7 [3] 80 30 false).2.2⟩

/-- C7: when `pty.spawn` throws, `createSession` returns `null`, registers
    nothing and leaves the state untouched, and the `create-session` handler
    emits nothing — in particular no success acknowledgment reaches the
    requesting viewer's callback. -/
theorem claim_C7 (s : ServerState) (v : Nat) (newId : String) :
    createSessionOp s false newId = (none, s) ∧
    step s (.createSession v false newId) = (s, []) :=
  ⟨rfl, rfl⟩

/-- C8: at startup (registry empty, no viewer connected), when the bootstrap
    spawn succeeds, exactly one session is registered and its display name is
    `Term 1`. -/
theorem claim_C8 (id0 : String) :
    (initServer true id0).live = [id0] ∧
    (initServer true id0).store.map (fun p => (p.1, p.2.name)) = [(id0, "Term 1")] ∧
    lookupSession (initServer true id0) id0
      = some { name := "Term 1", history := RingBuffer.new HISTORY_LIMIT } := by
  have hn : getNextSessionNumber (liveNames emptyServer) = 1 := rfl
  have h1 : initServer true id0
      = { store := [(id0, { name := "Term 1",
                            history := RingBuffer.new HISTORY_LIMIT })],
          live := [id0], connected := [], rooms := [] } := by
    rw [initServer, if_pos (show emptyServer.live.length = 0 from rfl),
        createSessionOp, if_pos (show true = true from rfl)]
    simp only [hn, termName_one]
    rfl
  rw [h1]
  refine ⟨rfl, rfl, ?_⟩
  rw [lookupSession, if_pos (by simp), lookupStore,
      List.find?_cons_of_pos _ (by simp)]
  rfl

end Server
